import Mathlib

/-!
Verification of the route exposure scoring engine of the Air-Q-Maps
repository (files src/compute_scores.py, src/get_aqi.py and the route
analysis section of app.py), against its natural-language specification.

Python numbers are modelled over the exact rationals: the literals 0.7,
0.3, 0.001 and the results of arithmetic are taken as exact decimal
fractions rather than IEEE doubles.  Python `round(x, 2)` rounds half to
even; `round2` below reproduces that on rationals.  Fallible code
(a Python expression that can raise) is modelled with `Option`; a
provider call that goes through the network is modelled by passing the
decoded response, with `Except.error` standing for any exception raised
while requesting or decoding (the bodies of the Python `try` blocks
catch every exception).
-/

namespace AirQMaps

/-- Round-half-to-even on rationals: the behaviour of Python built-in
`round(y)` to zero digits. -/
def roundHalfEven (y : ℚ) : ℤ :=
  if y - (⌊y⌋ : ℚ) < 1 / 2 then ⌊y⌋
  else if 1 / 2 < y - (⌊y⌋ : ℚ) then ⌊y⌋ + 1
  else if 2 ∣ ⌊y⌋ then ⌊y⌋ else ⌊y⌋ + 1

/-- Python `round(x, 2)`: round to two decimal places, ties to even. -/
def round2 (x : ℚ) : ℚ := (roundHalfEven (x * 100) : ℚ) / 100

/-- The walk underlying the Python slice `l[::step]`: `k` counts how many
elements remain to be skipped before the next kept one. -/
def sliceStep (step : ℕ) : ℕ → List α → List α
  | _, [] => []
  | 0, x :: xs => x :: sliceStep step (step - 1) xs
  | k + 1, _ :: xs => sliceStep step k xs

/-- The Python slice `l[::step]` for `step ≥ 1`: every `step`-th element of
`l` starting at index 0 (`getElem?_takeEvery` below makes that exact). -/
def takeEvery (step : ℕ) (l : List α) : List α := sliceStep step 0 l

/-- src/compute_scores.py, `sample_route_points(route_coords, max_samples)`.

    n = len(route_coords)
    if n == 0: return []
    step = max(1, n // max_samples)
    return route_coords[::step]

Returns `none` exactly when the Python code raises: `n // max_samples`
raises `ZeroDivisionError` when `max_samples = 0` and the route is
non-empty (the empty route returns before the division). -/
def sample_route_points (route_coords : List α) (max_samples : ℕ) : Option (List α) :=
  if route_coords.length = 0 then some []
  else if max_samples = 0 then none
  else some (takeEvery (max 1 (route_coords.length / max_samples)) route_coords)

/-- The collection loop of src/compute_scores.py, `compute_route_metrics`:

    for lat, lon in sampled_points:
        pm = get_pm25_nearby(lat, lon)
        if pm:
            pm_values.append(pm)

`reading` abstracts `get_pm25_nearby` as a pure map from a coordinate to
an optional reading.  Note the Python truthiness test `if pm:` keeps a
reading only when it is not `None` AND not zero. -/
def collect_pm_values (reading : ℚ × ℚ → Option ℚ) (sampled_points : List (ℚ × ℚ)) : List ℚ :=
  sampled_points.filterMap (fun p =>
    match reading p with
    | some pm => if pm ≠ 0 then some pm else none
    | none => none)

/-- Python `max(x :: xs)` on a non-empty list. -/
def pyListMax (x : ℚ) (xs : List ℚ) : ℚ := xs.foldl max x

/-- Python `min(x :: xs)` on a non-empty list. -/
def pyListMin (x : ℚ) (xs : List ℚ) : ℚ := xs.foldl min x

/-- src/compute_scores.py: `avg_pm = sum(pm_values) / len(pm_values)` for
`pm_values = x :: xs`. -/
def avg_pm (x : ℚ) (xs : List ℚ) : ℚ := (x :: xs).sum / ((x :: xs).length : ℚ)

/-- src/compute_scores.py: `pollution_score = 0.7 * avg_pm + 0.3 * max_pm`. -/
def pollution_score (x : ℚ) (xs : List ℚ) : ℚ :=
  0.7 * avg_pm x xs + 0.3 * pyListMax x xs

/-- src/compute_scores.py:
`healthiness_score = max(0, 100 - (pollution_score / 5))`. -/
def healthiness_score (x : ℚ) (xs : List ℚ) : ℚ :=
  max 0 (100 - pollution_score x xs / 5)

/-- The dictionary returned by `compute_route_metrics` on success. -/
structure RouteMetrics where
  avg_pm25 : ℚ
  max_pm25 : ℚ
  pollution_score : ℚ
  healthiness_score : ℚ
  samples_used : ℕ
deriving DecidableEq, Repr

/-- The tail of src/compute_scores.py, `compute_route_metrics`, from the
`if not pm_values:` test on: `None` on an empty value list, otherwise the
rounded statistics dictionary. -/
def metrics_of_pm_values : List ℚ → Option RouteMetrics
  | [] => none
  | x :: xs =>
    some ⟨round2 (avg_pm x xs), round2 (pyListMax x xs),
      round2 (pollution_score x xs), round2 (healthiness_score x xs),
      (x :: xs).length⟩

/-- src/compute_scores.py, `compute_route_metrics(route_coords, sample_count)`
with the network-reading function abstracted as `reading`.  The outer
`Option` is `none` exactly when `sample_route_points` raises; the inner
`Option` is the absent-vs-present result of the Python function. -/
def compute_route_metrics (route_coords : List (ℚ × ℚ)) (reading : ℚ × ℚ → Option ℚ)
    (sample_count : ℕ) : Option (Option RouteMetrics) :=
  (sample_route_points route_coords sample_count).map (fun sampled =>
    metrics_of_pm_values (collect_pm_values reading sampled))

/-- One entry of the `measurements` array of an OpenAQ station record:
the fields read by src/get_aqi.py (`m.get("parameter")`, `m["value"]`). -/
structure OAMeasurement where
  parameter : String
  value : ℚ
deriving DecidableEq, Repr

/-- One station record of an OpenAQ response: a list of measurements and
an optional coordinate (`item.get("coordinates")`; `none` models both a
missing and an empty/falsy coordinates entry). -/
structure OAStation where
  measurements : List OAMeasurement
  coordinates : Option (ℚ × ℚ)
deriving DecidableEq, Repr

/-- A decoded OpenAQ HTTP response: status code and the `"results"` array
(`r.json().get("results", [])`). -/
structure OAResponse where
  status_code : ℕ
  results : List OAStation
deriving DecidableEq, Repr

/-- src/get_aqi.py, `get_pm25_openaq`:
`pm = next((m["value"] for m in measurements if m.get("parameter") == "pm25"), None)`,
the first pm25 measurement of a station, if any. -/
def station_pm25 (s : OAStation) : Option ℚ :=
  (s.measurements.find? (fun m => m.parameter == "pm25")).map (fun m => m.value)

/-- The station loop of src/get_aqi.py, `get_pm25_openaq`: keep each
station that has a pm25 value and a coordinate, pairing the value with
`weight = 1 / (dist + 0.001)`.  The Python code builds the two parallel
lists `values` and `weights`; here they are a single list of pairs.
`dist` abstracts `haversine_distance(lat, lon, coords[...])` from the
query point (transcendental, hence kept abstract; it is non-negative).
A station with an empty `measurements` list is skipped by the Python
`if not measurements: continue`, which coincides with `station_pm25`
returning `none` there. -/
def station_value_weight (dist : ℚ × ℚ → ℚ) (item : OAStation) : Option (ℚ × ℚ) :=
  match station_pm25 item, item.coordinates with
  | some pm, some c => some (pm, 1 / (dist c + 0.001))
  | _, _ => none

/-- The whole station loop: `values` and `weights` as one list of pairs. -/
def openaq_values_weights (dist : ℚ × ℚ → ℚ) (data : List OAStation) : List (ℚ × ℚ) :=
  data.filterMap (station_value_weight dist)

/-- src/get_aqi.py, `get_pm25_openaq(lat, lon)` given the decoded
response.  `Except.error` stands for any exception raised by
`requests.get` or `r.json()`, all caught by the `except` clause and
turned into `None`.  Otherwise: `None` on a non-200 status, on an empty
result list, or when no station yields a usable value; else the
distance-weighted average `sum(v * w) / sum(weights)` rounded to two
decimals. -/
def get_pm25_openaq (dist : ℚ × ℚ → ℚ) (resp : Except String OAResponse) : Option ℚ :=
  match resp with
  | .error _ => none
  | .ok r =>
    if r.status_code ≠ 200 then none
    else if r.results.isEmpty then none
    else
      let vw := openaq_values_weights dist r.results
      if vw.isEmpty then none
      else some (round2 ((vw.map (fun p => p.1 * p.2)).sum / (vw.map Prod.snd).sum))

/-- A decoded AQICN HTTP response: status code, the `"status"` field of
the JSON body, and the extracted
`data["data"]["iaqi"].get("pm25", {}).get("v")` value (`none` when that
chain yields nothing). -/
structure AQICNResponse where
  status_code : ℕ
  status : String
  pm25 : Option ℚ
deriving DecidableEq, Repr

/-- src/get_aqi.py, `get_pm25_aqicn(lat, lon)`.  Returns `None`
immediately when no AQICN_TOKEN is configured (the provider is skipped
without any network call).  `Except.error` stands for any exception in
the `try` block, caught and turned into `None`.  Otherwise: `None` on a
non-200 status or a JSON status other than "ok"; note the truthiness
test `return round(float(pm25), 2) if pm25 else None`, which also maps a
present reading of 0 to `None`. -/
def get_pm25_aqicn (token : Option String) (resp : Except String AQICNResponse) : Option ℚ :=
  match token with
  | none => none
  | some _ =>
    match resp with
    | .error _ => none
    | .ok r =>
      if r.status_code ≠ 200 then none
      else if r.status ≠ "ok" then none
      else
        match r.pm25 with
        | some v => if v ≠ 0 then some (round2 v) else none
        | none => none

/-- The provider-call environment of one `get_pm25_nearby` invocation:
the (abstracted) distance function and decoded response of the OpenAQ
call, and the token and decoded response of the AQICN call. -/
structure ProviderEnv where
  oa_dist : ℚ × ℚ → ℚ
  oa_resp : Except String OAResponse
  aqicn_token : Option String
  aqicn_resp : Except String AQICNResponse

/-- src/get_aqi.py, `get_pm25_nearby(lat, lon)`: try OpenAQ, and only on
`None` fall back to AQICN.  The boolean records whether the fallback
provider was consulted (the Python code only evaluates the AQICN call in
the `None` branch). -/
def get_pm25_nearby (env : ProviderEnv) : Option ℚ × Bool :=
  match get_pm25_openaq env.oa_dist env.oa_resp with
  | some pm => (some pm, false)
  | none => (get_pm25_aqicn env.aqicn_token env.aqicn_resp, true)

/-- app.py, route analysis section:

    route_scores = []
    for i, route_coords in enumerate(routes, 1):
        metrics = cached_metrics(route_coords, samples=sample_points)
        if metrics:
            route_scores.append((i, metrics["healthiness_score"], metrics, route_coords))

`metricsOf` abstracts `cached_metrics` (a memoized `compute_route_metrics`);
`if metrics:` is `isSome` here since the metrics dictionary, when present,
always has five keys and is therefore truthy. -/
def route_scores (routes : List (List (ℚ × ℚ)))
    (metricsOf : List (ℚ × ℚ) → Option RouteMetrics) :
    List (ℕ × ℚ × RouteMetrics × List (ℚ × ℚ)) :=
  routes.enum.filterMap (fun p =>
    match metricsOf p.2 with
    | some m => some (p.1 + 1, m.healthiness_score, m, p.2)
    | none => none)

/-- app.py: `route_scores.sort(key=lambda x: x[1], reverse=True)` — a
stable sort on the healthiness score, descending. -/
def rank_routes (routes : List (List (ℚ × ℚ)))
    (metricsOf : List (ℚ × ℚ) → Option RouteMetrics) :
    List (ℕ × ℚ × RouteMetrics × List (ℚ × ℚ)) :=
  (route_scores routes metricsOf).mergeSort (fun a b => b.2.1 ≤ a.2.1)

/-- app.py: `best = route_scores[0]` after the sort (`none` when no route
could be scored; the Python code stops with an error message before this
line in that case). -/
def best_route (routes : List (List (ℚ × ℚ)))
    (metricsOf : List (ℚ × ℚ) → Option RouteMetrics) :
    Option (ℕ × ℚ × RouteMetrics × List (ℚ × ℚ)) :=
  (rank_routes routes metricsOf).head?

/-- A concrete metrics record (the end-to-end scenario values of the
spec), used in concrete instantiations. -/
def exampleMetrics : RouteMetrics := ⟨60, 80, 66, 86.8, 3⟩

end AirQMaps

namespace AirQMaps

theorem length_sliceStep (step : ℕ) (hs : 1 ≤ step) (l : List α) (k : ℕ) :
    (sliceStep step k l).length = (l.length - k + step - 1) / step := by
  induction l generalizing k with
  | nil =>
    simp only [sliceStep, List.length_nil, Nat.zero_sub]
    exact (Nat.div_eq_of_lt (by omega)).symm
  | cons x xs ih =>
    cases k with
    | zero =>
      simp only [sliceStep, List.length_cons, ih (step - 1), Nat.sub_zero]
      rcases Nat.le_total (step - 1) xs.length with h | h
      · have hxs : xs.length - (step - 1) + step - 1 = xs.length := by omega
        rw [hxs]
        have h2 : xs.length + 1 + step - 1 = xs.length + step := by omega
        rw [h2, Nat.add_div_right _ (by omega)]
      · have hdrop : xs.length - (step - 1) = 0 := by omega
        have h2 : xs.length + 1 + step - 1 = xs.length + step := by omega
        rw [hdrop, h2]
        have hone : (xs.length + step) / step = 1 := by
          rw [Nat.add_div_right _ (by omega), Nat.div_eq_of_lt (by omega)]
        have hzero : (0 + step - 1) / step = 0 := Nat.div_eq_of_lt (by omega)
        rw [hone, hzero]
    | succ j =>
      simp only [sliceStep, List.length_cons, ih j]
      have h2 : xs.length + 1 - (j + 1) = xs.length - j := by omega
      rw [h2]

theorem getElem?_sliceStep (step : ℕ) (hs : 1 ≤ step) (l : List α) (k i : ℕ) :
    (sliceStep step k l)[i]? = l[k + i * step]? := by
  induction l generalizing k i with
  | nil => simp [sliceStep]
  | cons x xs ih =>
    cases k with
    | zero =>
      cases i with
      | zero => simp [sliceStep]
      | succ j =>
        have hidx : 0 + (j + 1) * step = (step - 1 + j * step) + 1 := by
          rw [Nat.succ_mul]; omega
        rw [hidx]
        simp only [sliceStep, List.getElem?_cons_succ]
        exact ih (step - 1) j
    | succ m =>
      have hidx : m + 1 + i * step = (m + i * step) + 1 := by omega
      rw [hidx]
      simp only [sliceStep, List.getElem?_cons_succ]
      exact ih m i

theorem sliceStep_sublist (step : ℕ) (l : List α) (k : ℕ) :
    (sliceStep step k l).Sublist l := by
  induction l generalizing k with
  | nil => simp [sliceStep]
  | cons x xs ih =>
    cases k with
    | zero => exact (ih (step - 1)).cons₂ x
    | succ j => exact (ih j).cons x

theorem length_takeEvery (step : ℕ) (hs : 1 ≤ step) (l : List α) :
    (takeEvery step l).length = (l.length + step - 1) / step := by
  simpa using length_sliceStep step hs l 0

theorem getElem?_takeEvery (step : ℕ) (hs : 1 ≤ step) (l : List α) (i : ℕ) :
    (takeEvery step l)[i]? = l[i * step]? := by
  simpa using getElem?_sliceStep step hs l 0 i

theorem takeEvery_sublist (step : ℕ) (l : List α) : (takeEvery step l).Sublist l :=
  sliceStep_sublist step l 0

theorem takeEvery_one (l : List α) : takeEvery 1 l = l := by
  apply List.ext_getElem?
  intro i
  simpa using getElem?_takeEvery 1 le_rfl l i

theorem sample_route_points_eq_takeEvery (route : List α) (m : ℕ)
    (h0 : route.length ≠ 0) (hm : 1 ≤ m) :
    sample_route_points route m = some (takeEvery (max 1 (route.length / m)) route) := by
  have hm0 : m ≠ 0 := by omega
  simp [sample_route_points, h0, hm0]

/-- Key stride arithmetic: with `step = max 1 (n / m)`, the number of kept
indices, `ceil(n / step)`, is under `2 * m` (but not under `m`). -/
theorem stride_count_lt (n m : ℕ) (hn : 1 ≤ n) (hm : 1 ≤ m) :
    (n + max 1 (n / m) - 1) / max 1 (n / m) < 2 * m := by
  rcases Nat.eq_zero_or_pos (n / m) with hq | hq
  · have hlt : n < m := by
      have := (Nat.div_eq_zero_iff (by omega : 0 < m)).mp hq
      omega
    have hmax : max 1 (n / m) = 1 := by omega
    rw [hmax]
    simp only [Nat.add_sub_cancel, Nat.div_one]
    omega
  · have hmax : max 1 (n / m) = n / m := by omega
    rw [hmax, Nat.div_lt_iff_lt_mul (by omega : 0 < n / m)]
    have hd := Nat.div_add_mod n m
    have hr : n % m < m := Nat.mod_lt _ (by omega)
    obtain ⟨b, hb⟩ : ∃ b, n / m = b + 1 := ⟨n / m - 1, by omega⟩
    obtain ⟨a, ha⟩ : ∃ a, m = a + 1 := ⟨m - 1, by omega⟩
    rw [hb, ha] at hd ⊢
    rw [ha] at hr
    have h1 : (a + 1) * (b + 1) = a * b + a + b + 1 := by ring
    have h2 : 2 * (a + 1) * (b + 1) = 2 * (a * b) + 2 * a + 2 * b + 2 := by ring
    omega

end AirQMaps

namespace AirQMaps

/-- The maximum of a non-empty Python list bounds its head. -/
theorem le_pyListMax (x : ℚ) (xs : List ℚ) : x ≤ pyListMax x xs := by
  induction xs generalizing x with
  | nil => exact le_rfl
  | cons y ys ih => exact le_trans (le_max_left x y) (ih (max x y))

/-- The maximum of a non-empty Python list bounds every member. -/
theorem mem_le_pyListMax (a x : ℚ) (xs : List ℚ) (h : a ∈ x :: xs) :
    a ≤ pyListMax x xs := by
  induction xs generalizing x with
  | nil =>
    rcases List.mem_singleton.mp h with rfl
    exact le_rfl
  | cons y ys ih =>
    rcases List.mem_cons.mp h with rfl | h2
    · exact le_trans (le_max_left a y) (le_pyListMax (max a y) ys)
    · rcases List.mem_cons.mp h2 with rfl | h3
      · exact le_trans (le_max_right x a) (le_pyListMax (max x a) ys)
      · exact ih (max x y) (List.mem_cons_of_mem _ h3)

/-- The minimum of a non-empty Python list is under its head. -/
theorem pyListMin_le (x : ℚ) (xs : List ℚ) : pyListMin x xs ≤ x := by
  induction xs generalizing x with
  | nil => exact le_rfl
  | cons y ys ih => exact le_trans (ih (min x y)) (min_le_left x y)

/-- The minimum of a non-empty Python list is under every member. -/
theorem pyListMin_le_mem (a x : ℚ) (xs : List ℚ) (h : a ∈ x :: xs) :
    pyListMin x xs ≤ a := by
  induction xs generalizing x with
  | nil =>
    rcases List.mem_singleton.mp h with rfl
    exact le_rfl
  | cons y ys ih =>
    rcases List.mem_cons.mp h with rfl | h2
    · exact le_trans (pyListMin_le (min a y) ys) (min_le_left a y)
    · rcases List.mem_cons.mp h2 with rfl | h3
      · exact le_trans (pyListMin_le (min x a) ys) (min_le_right x a)
      · exact ih (min x y) (List.mem_cons_of_mem _ h3)

theorem length_cons_cast_pos (x : ℚ) (xs : List ℚ) :
    (0 : ℚ) < ((x :: xs).length : ℚ) := by
  exact_mod_cast Nat.succ_pos xs.length

theorem avg_pm_le_pyListMax (x : ℚ) (xs : List ℚ) : avg_pm x xs ≤ pyListMax x xs := by
  rw [avg_pm, div_le_iff₀ (length_cons_cast_pos x xs)]
  have hsum := List.sum_le_card_nsmul (x :: xs) (pyListMax x xs)
    (fun b hb => mem_le_pyListMax b x xs hb)
  rw [nsmul_eq_mul] at hsum
  linarith

theorem pyListMin_le_avg_pm (x : ℚ) (xs : List ℚ) : pyListMin x xs ≤ avg_pm x xs := by
  rw [avg_pm, le_div_iff₀ (length_cons_cast_pos x xs)]
  have hsum := List.card_nsmul_le_sum (x :: xs) (pyListMin x xs)
    (fun b hb => pyListMin_le_mem b x xs hb)
  rw [nsmul_eq_mul] at hsum
  linarith

theorem roundHalfEven_nonneg {y : ℚ} (h : 0 ≤ y) : 0 ≤ roundHalfEven y := by
  have hf : 0 ≤ ⌊y⌋ := Int.floor_nonneg.mpr h
  rw [roundHalfEven]
  split_ifs <;> omega

theorem round2_nonneg {x : ℚ} (h : 0 ≤ x) : 0 ≤ round2 x := by
  have hr : 0 ≤ roundHalfEven (x * 100) := roundHalfEven_nonneg (by positivity)
  have : (0 : ℚ) ≤ (roundHalfEven (x * 100) : ℚ) := by exact_mod_cast hr
  rw [round2]
  positivity

theorem takeEvery_length_pos (step : ℕ) (x : α) (xs : List α) :
    0 < (takeEvery step (x :: xs)).length := by
  simp [takeEvery, sliceStep]

/-- C1, counterexample to the cap: a 3-point route sampled at density
maxSamples = 2 keeps the stride at floor(3/2) = 1 and returns all 3
points, exceeding the configured cap of 2. -/
theorem sample_cap_counterexample :
    sample_route_points [((0 : ℚ), (0 : ℚ)), (0, 1), (0, 2)] 2 =
      some [((0 : ℚ), (0 : ℚ)), (0, 1), (0, 2)] ∧
    ¬ (([((0 : ℚ), (0 : ℚ)), (0, 1), (0, 2)] : List (ℚ × ℚ)).length ≤ 2) := by
  decide

/-- C1 (amended): `sample_route_points route m` with `m ≥ 1` always
succeeds and returns a list of length at most `2 * m - 1` (NOT at most
`m`: floor-division truncation in the stride can let the result exceed
the configured cap, though never reach twice the cap) and at most
`len route`; the result has length 0 only when the route is empty. -/
theorem sample_length_bound (route : List (ℚ × ℚ)) (m : ℕ) (hm : 1 ≤ m) :
    ∃ s, sample_route_points route m = some s ∧
      s.length ≤ 2 * m - 1 ∧ s.length ≤ route.length ∧
      (s.length = 0 → route = []) := by
  by_cases h0 : route.length = 0
  · have hr := List.length_eq_zero.mp h0
    subst hr
    exact ⟨[], by simp [sample_route_points], by omega, by simp, fun _ => rfl⟩
  · refine ⟨takeEvery (max 1 (route.length / m)) route,
      sample_route_points_eq_takeEvery route m h0 hm, ?_, ?_, ?_⟩
    · rw [length_takeEvery _ (le_max_left _ _)]
      exact Nat.le_pred_of_lt (stride_count_lt route.length m (by omega) hm)
    · exact (takeEvery_sublist _ _).length_le
    · intro hz
      cases route with
      | nil => rfl
      | cons x xs =>
        have hp := takeEvery_length_pos (max 1 ((x :: xs).length / m)) x xs
        omega

/-- C1 (amended) witness: a 5-point route at density 2 samples with
stride 2, keeping 3 = 2 * 2 - 1 points. -/
theorem sample_length_bound_witness :
    ∃ s, sample_route_points
        [((0 : ℚ), (0 : ℚ)), (0, 1), (0, 2), (0, 3), (0, 4)] 2 = some s ∧
      s.length ≤ 2 * 2 - 1 ∧
      s.length ≤ ([((0 : ℚ), (0 : ℚ)), (0, 1), (0, 2), (0, 3), (0, 4)] :
        List (ℚ × ℚ)).length ∧
      (s.length = 0 →
        [((0 : ℚ), (0 : ℚ)), (0, 1), (0, 2), (0, 3), (0, 4)] = []) :=
  sample_length_bound _ 2 (by omega)

/-- C3: for maxSamples ≥ 1, sampling never fails; the empty route yields
the empty sample set; the result is exactly every step-th coordinate of
the route with step = max(1, floor(len(route) / maxSamples)), an
order-preserving subsequence; and when maxSamples ≥ len(route) the whole
route is returned.  Determinism is immediate: `sample_route_points` is a
pure function of the route and maxSamples. -/
theorem sample_route_points_spec (route : List (ℚ × ℚ)) (m : ℕ) (hm : 1 ≤ m) :
    ∃ s, sample_route_points route m = some s ∧
      (route = [] → s = []) ∧
      (∀ i : ℕ, s[i]? = route[i * max 1 (route.length / m)]?) ∧
      s.Sublist route ∧
      (route.length ≤ m → s = route) := by
  by_cases h0 : route.length = 0
  · have hr := List.length_eq_zero.mp h0
    subst hr
    exact ⟨[], by simp [sample_route_points], fun _ => rfl, fun i => by simp,
      List.Sublist.refl _, fun _ => rfl⟩
  · refine ⟨takeEvery (max 1 (route.length / m)) route,
      sample_route_points_eq_takeEvery route m h0 hm,
      fun hr => absurd (by rw [hr]; rfl) h0,
      fun i => getElem?_takeEvery _ (le_max_left _ _) route i,
      takeEvery_sublist _ _, fun hge => ?_⟩
    have h1 : route.length / m ≤ m / m := Nat.div_le_div_right hge
    rw [Nat.div_self (by omega : 0 < m)] at h1
    have hstep : max 1 (route.length / m) = 1 := by omega
    rw [hstep, takeEvery_one]

/-- C3 witness at a 5-point route and maxSamples = 2 (stride 2). -/
theorem sample_route_points_spec_witness :
    ∃ s, sample_route_points
        [((0 : ℚ), (0 : ℚ)), (0, 1), (0, 2), (0, 3), (0, 4)] 2 = some s ∧
      ([((0 : ℚ), (0 : ℚ)), (0, 1), (0, 2), (0, 3), (0, 4)] =
          ([] : List (ℚ × ℚ)) → s = []) ∧
      (∀ i : ℕ, s[i]? = [((0 : ℚ), (0 : ℚ)), (0, 1), (0, 2), (0, 3),
        (0, 4)][i * max 1 (([((0 : ℚ), (0 : ℚ)), (0, 1), (0, 2), (0, 3),
          (0, 4)] : List (ℚ × ℚ)).length / 2)]?) ∧
      s.Sublist [((0 : ℚ), (0 : ℚ)), (0, 1), (0, 2), (0, 3), (0, 4)] ∧
      (([((0 : ℚ), (0 : ℚ)), (0, 1), (0, 2), (0, 3), (0, 4)] :
          List (ℚ × ℚ)).length ≤ 2 →
        s = [((0 : ℚ), (0 : ℚ)), (0, 1), (0, 2), (0, 3), (0, 4)]) :=
  sample_route_points_spec _ 2 (by omega)

/-- C10: `sample_route_points` is total for every maxSamples ≥ 1 on every
route (empty or not), but with maxSamples = 0 a non-empty route hits the
floor division `len(route) // 0`, which raises ZeroDivisionError, so the
positivity precondition is necessary. -/
theorem sample_route_points_total_iff_pos (route : List (ℚ × ℚ)) :
    (∀ m : ℕ, 1 ≤ m → (sample_route_points route m).isSome = true) ∧
    (route ≠ [] → sample_route_points route 0 = none) := by
  constructor
  · intro m hm
    by_cases h0 : route.length = 0
    · simp [sample_route_points, h0]
    · rw [sample_route_points_eq_takeEvery route m h0 hm]
      rfl
  · intro hne
    have h0 : ¬ route.length = 0 := by simpa [List.length_eq_zero] using hne
    simp [sample_route_points, h0]

/-- C10 witness: a 1-point route succeeds at maxSamples = 1 and fails at
maxSamples = 0. -/
theorem sample_route_points_total_iff_pos_witness :
    (sample_route_points [((0 : ℚ), (0 : ℚ))] 1).isSome = true ∧
    sample_route_points [((0 : ℚ), (0 : ℚ))] 0 = none :=
  ⟨(sample_route_points_total_iff_pos _).1 1 le_rfl,
   (sample_route_points_total_iff_pos _).2 (by simp)⟩

/-- C2 counterexample: a sample whose reading is present with value 0 is
dropped by the Python truthiness test `if pm:` in compute_route_metrics,
so pmValues stays empty instead of retaining the 0 entry. -/
theorem collect_pm_values_zero_counterexample :
    collect_pm_values (fun _ => some 0) [((0 : ℚ), (0 : ℚ))] = [] ∧
    collect_pm_values (fun _ => some 0) [((0 : ℚ), (0 : ℚ))] ≠ [0] := by
  decide

/-- C2 (amended): for every list of sample coordinates, pmValues collects
exactly the present AND NONZERO readings, in sample order, one entry per
such sample; a present reading of value 0 is treated like an absent one
(dropped, hence also not counted in samplesUsed). -/
theorem collect_pm_values_spec (reading : ℚ × ℚ → Option ℚ)
    (samples : List (ℚ × ℚ)) :
    collect_pm_values reading samples =
      (samples.filterMap reading).filter (fun v => v ≠ 0) := by
  induction samples with
  | nil => rfl
  | cons p ps ih =>
    simp only [collect_pm_values, List.filterMap_cons] at ih ⊢
    cases hr : reading p with
    | none => simpa using ih
    | some v =>
      by_cases hv : v = 0
      · subst hv
        simpa [List.filter_cons] using ih
      · simpa [List.filter_cons, hv] using ih

/-- C4: for every non-empty pmValues the aggregator reports the rounded
mean, the rounded maximum, pollutionScore = round2(0.7 * mean + 0.3 * max),
healthinessScore = round2(max(0, 100 - pollutionScore_unrounded / 5))
(never negative), and the count of contributing samples; in particular
[40, 60, 80] yields avgPM = 60, maxPM = 80, pollutionScore = 66,
healthinessScore = 86.8 with 3 samples used. -/
theorem metrics_of_pm_values_formulas (x : ℚ) (xs : List ℚ) :
    metrics_of_pm_values (x :: xs) =
      some ⟨round2 (avg_pm x xs), round2 (pyListMax x xs),
        round2 (0.7 * avg_pm x xs + 0.3 * pyListMax x xs),
        round2 (max 0 (100 - (0.7 * avg_pm x xs + 0.3 * pyListMax x xs) / 5)),
        (x :: xs).length⟩ ∧
    0 ≤ round2 (max 0 (100 - (0.7 * avg_pm x xs + 0.3 * pyListMax x xs) / 5)) ∧
    metrics_of_pm_values [40, 60, 80] = some ⟨60, 80, 66, 86.8, 3⟩ := by
  refine ⟨rfl, round2_nonneg (le_max_left 0 _), ?_⟩
  norm_num [metrics_of_pm_values, avg_pm, pollution_score, healthiness_score,
    pyListMax, round2, roundHalfEven, max_def, min_def, RouteMetrics.mk.injEq]

/-- C5: the (unrounded) pollution score 0.7 * mean + 0.3 * max computed by
the aggregator lies between min(pmValues) and max(pmValues) inclusive,
for every non-empty pmValues = x :: xs. -/
theorem pollution_score_between (x : ℚ) (xs : List ℚ) :
    pyListMin x xs ≤ pollution_score x xs ∧
    pollution_score x xs ≤ pyListMax x xs := by
  have h1 := pyListMin_le_avg_pm x xs
  have h2 := avg_pm_le_pyListMax x xs
  have h3 : pyListMin x xs ≤ pyListMax x xs := le_trans h1 h2
  constructor
  · simp only [pollution_score]
    linarith
  · simp only [pollution_score]
    linarith

theorem station_value_weight_eq_some {dist : ℚ × ℚ → ℚ} {s : OAStation}
    {q : ℚ × ℚ} (h : station_value_weight dist s = some q) :
    ∃ pm c, station_pm25 s = some pm ∧ s.coordinates = some c ∧
      q = (pm, 1 / (dist c + 0.001)) := by
  unfold station_value_weight at h
  cases hps : station_pm25 s <;> rw [hps] at h
  · cases hcs : s.coordinates <;> rw [hcs] at h <;> simp at h
  · cases hcs : s.coordinates <;> rw [hcs] at h
    · simp at h
    · exact ⟨_, _, rfl, rfl, (Option.some.inj h).symm⟩

theorem station_value_weight_of_valid {dist : ℚ × ℚ → ℚ} {s : OAStation}
    {pm : ℚ} {c : ℚ × ℚ} (hpm : station_pm25 s = some pm)
    (hc : s.coordinates = some c) :
    station_value_weight dist s = some (pm, 1 / (dist c + 0.001)) := by
  unfold station_value_weight
  rw [hpm, hc]

theorem openaq_weight_pos (dist : ℚ × ℚ → ℚ) (hdist : ∀ c, 0 ≤ dist c)
    (data : List OAStation) :
    ∀ w ∈ (openaq_values_weights dist data).map Prod.snd, 0 < w := by
  intro w hw
  obtain ⟨q, hq, rfl⟩ := List.mem_map.mp hw
  obtain ⟨s, _, heq⟩ := List.mem_filterMap.mp hq
  obtain ⟨pm, c, _, _, rfl⟩ := station_value_weight_eq_some heq
  have h0 := hdist c
  have hpos : (0 : ℚ) < dist c + 0.001 := by
    have he : (0 : ℚ) < 0.001 := by norm_num
    linarith
  simpa using one_div_pos.mpr hpos

/-- C6: whenever the decoded OpenAQ response has status 200 and at least
one station with a pm25 value and a known coordinate, `get_pm25_openaq`
returns the weight-normalized average sum(v_i * w_i) / sum(w_i) with
w_i = 1 / (dist_i + 0.001), rounded to 2 decimals; every weight is
strictly positive (distance is non-negative and the epsilon guards a
station coinciding with the query point), so the divisor sum(w_i) is
strictly positive and the division never divides by zero. -/
theorem get_pm25_openaq_weighted_avg (dist : ℚ × ℚ → ℚ) (r : OAResponse)
    (hstatus : r.status_code = 200) (hdist : ∀ c, 0 ≤ dist c)
    (hvalid : ∃ s ∈ r.results,
      (station_pm25 s).isSome = true ∧ s.coordinates.isSome = true) :
    0 < ((openaq_values_weights dist r.results).map Prod.snd).sum ∧
    get_pm25_openaq dist (.ok r) =
      some (round2 (((openaq_values_weights dist r.results).map
          (fun p => p.1 * p.2)).sum /
        ((openaq_values_weights dist r.results).map Prod.snd).sum)) := by
  obtain ⟨s, hs_mem, hpm, hc⟩ := hvalid
  obtain ⟨pm, hpm'⟩ := Option.isSome_iff_exists.mp hpm
  obtain ⟨c, hc'⟩ := Option.isSome_iff_exists.mp hc
  have hel : (pm, 1 / (dist c + 0.001)) ∈ openaq_values_weights dist r.results :=
    List.mem_filterMap.mpr ⟨s, hs_mem, station_value_weight_of_valid hpm' hc'⟩
  have hvw_ne : openaq_values_weights dist r.results ≠ [] :=
    List.ne_nil_of_mem hel
  have hsum_pos : 0 < ((openaq_values_weights dist r.results).map Prod.snd).sum := by
    refine List.sum_pos _ (openaq_weight_pos dist hdist r.results) ?_
    simpa using hvw_ne
  refine ⟨hsum_pos, ?_⟩
  simp only [get_pm25_openaq]
  rw [if_neg (by simp [hstatus])]
  rw [if_neg (by simp [List.isEmpty_iff]; exact List.ne_nil_of_mem hs_mem)]
  rw [if_neg (by simp [List.isEmpty_iff, hvw_ne])]

/-- C6 witness: a single station at distance 0 with pm25 = 40 gives
weight 1000 and weighted average 40. -/
theorem get_pm25_openaq_weighted_avg_witness :
    0 < ((openaq_values_weights (fun _ => 0)
        [⟨[⟨"pm25", 40⟩], some (0, 0)⟩]).map Prod.snd).sum ∧
    get_pm25_openaq (fun _ => 0)
        (.ok ⟨200, [⟨[⟨"pm25", 40⟩], some (0, 0)⟩]⟩) =
      some (round2 (((openaq_values_weights (fun _ => 0)
          [⟨[⟨"pm25", 40⟩], some (0, 0)⟩]).map (fun p => p.1 * p.2)).sum /
        ((openaq_values_weights (fun _ => 0)
          [⟨[⟨"pm25", 40⟩], some (0, 0)⟩]).map Prod.snd).sum)) :=
  get_pm25_openaq_weighted_avg (fun _ => 0) ⟨200, [⟨[⟨"pm25", 40⟩], some (0, 0)⟩]⟩
    rfl (fun _ => le_refl 0)
    ⟨⟨[⟨"pm25", 40⟩], some (0, 0)⟩, by simp, by decide, by decide⟩

/-- C7: the unified lookup tries OpenAQ first and returns its value
without evaluating the AQICN call when OpenAQ yields one; it consults
AQICN exactly when OpenAQ yields nothing; a missing AQICN token makes
the fallback return absent without any call; any exception inside either
provider call (modelled as `Except.error`) and any non-200 status is
converted locally to absent; and when both providers fail the lookup
returns absent — all functions here are total, so no exception ever
reaches the caller. -/
theorem get_pm25_nearby_fallback (env : ProviderEnv) :
    (∀ v, get_pm25_openaq env.oa_dist env.oa_resp = some v →
      get_pm25_nearby env = (some v, false)) ∧
    (get_pm25_openaq env.oa_dist env.oa_resp = none →
      get_pm25_nearby env =
        (get_pm25_aqicn env.aqicn_token env.aqicn_resp, true)) ∧
    (env.aqicn_token = none →
      get_pm25_aqicn env.aqicn_token env.aqicn_resp = none) ∧
    (∀ e, get_pm25_openaq env.oa_dist (.error e) = none) ∧
    (∀ e, get_pm25_aqicn env.aqicn_token (.error e) = none) ∧
    (∀ r, r.status_code ≠ 200 → get_pm25_openaq env.oa_dist (.ok r) = none) ∧
    (∀ r, r.status_code ≠ 200 → get_pm25_aqicn env.aqicn_token (.ok r) = none) ∧
    (get_pm25_openaq env.oa_dist env.oa_resp = none →
      get_pm25_aqicn env.aqicn_token env.aqicn_resp = none →
      get_pm25_nearby env = (none, true)) := by
  obtain ⟨d, oresp, tok, aresp⟩ := env
  refine ⟨fun v hv => ?_, fun h => ?_, fun h => ?_, fun e => rfl, fun e => ?_,
    fun r hr => ?_, fun r hr => ?_, fun h1 h2 => ?_⟩
  · simp only [get_pm25_nearby] at *
    rw [hv]
  · simp only [get_pm25_nearby] at *
    rw [h]
  · simp only at h
    subst h
    rfl
  · cases tok <;> rfl
  · simp only [get_pm25_openaq]
    rw [if_pos hr]
  · cases tok with
    | none => rfl
    | some t =>
      simp only [get_pm25_aqicn]
      rw [if_pos hr]
  · simp only [get_pm25_nearby] at *
    rw [h1, h2]

/-- C7 witness: with a successful OpenAQ response the fallback is not
consulted; independently, a missing token makes the AQICN provider
absent. -/
theorem get_pm25_nearby_fallback_witness :
    get_pm25_nearby ⟨fun _ => 0, .ok ⟨200, [⟨[⟨"pm25", 40⟩], some (0, 0)⟩]⟩,
        none, .error "boom"⟩ = (some 40, false) ∧
    get_pm25_aqicn none (.error "boom") = none :=
  ⟨(get_pm25_nearby_fallback ⟨fun _ => 0,
      .ok ⟨200, [⟨[⟨"pm25", 40⟩], some (0, 0)⟩]⟩, none, .error "boom"⟩).1 40
      (by norm_num [get_pm25_openaq, openaq_values_weights, station_value_weight,
        station_pm25, round2, roundHalfEven, List.find?_cons, List.filterMap_cons,
        List.isEmpty]),
   (get_pm25_nearby_fallback ⟨fun _ => 0,
      .ok ⟨200, [⟨[⟨"pm25", 40⟩], some (0, 0)⟩]⟩, none, .error "boom"⟩).2.2.1 rfl⟩

theorem forall_mem_enumFrom_iff {P : α → Prop} (l : List α) (n : ℕ) :
    (∀ p ∈ l.enumFrom n, P p.2) ↔ (∀ r ∈ l, P r) := by
  induction l generalizing n with
  | nil => simp
  | cons x xs ih =>
    rw [List.enumFrom_cons]
    constructor
    · intro h r hr
      rcases List.mem_cons.mp hr with rfl | hr2
      · exact h (n, r) (List.mem_cons_self _ _)
      · exact (ih (n + 1)).mp (fun p hp => h p (List.mem_cons_of_mem _ hp)) r hr2
    · intro h p hp
      rcases List.mem_cons.mp hp with rfl | hp2
      · exact h x (List.mem_cons_self _ _)
      · exact (ih (n + 1)).mpr (fun r hr => h r (List.mem_cons_of_mem _ hr)) p hp2

theorem forall_mem_enum_iff {P : α → Prop} (l : List α) :
    (∀ p ∈ l.enum, P p.2) ↔ (∀ r ∈ l, P r) :=
  forall_mem_enumFrom_iff l 0

theorem mem_enumFrom_of_getElem? {l : List α} {i : ℕ} {r : α} (n : ℕ)
    (h : l[i]? = some r) : (n + i, r) ∈ l.enumFrom n := by
  induction l generalizing i n with
  | nil => simp at h
  | cons x xs ih =>
    rw [List.enumFrom_cons]
    cases i with
    | zero =>
      simp only [List.getElem?_cons_zero, Option.some.injEq] at h
      subst h
      simp
    | succ j =>
      have h2 := ih (n + 1) (by simpa using h)
      have hn : n + (j + 1) = (n + 1) + j := by omega
      rw [hn]
      exact List.mem_cons_of_mem _ h2

theorem mem_enum_of_getElem? {l : List α} {i : ℕ} {r : α}
    (h : l[i]? = some r) : (i, r) ∈ l.enum := by
  simpa using mem_enumFrom_of_getElem? 0 h

/-- C8: data unavailability degrades level by level without exceptions:
a route with empty geometry yields an absent metrics result (for every
sampling density, even 0); every route whose collected pmValues ends up
empty — readings absent everywhere, or present only with value 0, or no
samples at all — yields an absent metrics result rather than a zero
score; the app-level score list is empty — the terminal "no scorable
routes" stop — if and only if every candidate route's metrics are
absent; and any route whose metrics are present keeps its entry (with
its 1-based identifier) in the score list. -/
theorem graceful_degradation (routes : List (List (ℚ × ℚ)))
    (metricsOf : List (ℚ × ℚ) → Option RouteMetrics)
    (reading : ℚ × ℚ → Option ℚ) :
    (∀ k, compute_route_metrics [] reading k = some none) ∧
    (∀ route k s, sample_route_points route k = some s →
      collect_pm_values reading s = [] →
      compute_route_metrics route reading k = some none) ∧
    (route_scores routes metricsOf = [] ↔ ∀ r ∈ routes, metricsOf r = none) ∧
    (∀ i r m, routes[i]? = some r → metricsOf r = some m →
      (i + 1, m.healthiness_score, m, r) ∈ route_scores routes metricsOf) := by
  refine ⟨fun k => rfl, ?_, ?_, ?_⟩
  · intro route k s hs hcoll
    rw [compute_route_metrics, hs, Option.map_some', hcoll]
    rfl
  · rw [route_scores, List.filterMap_eq_nil_iff]
    have h1 : ∀ p : ℕ × List (ℚ × ℚ),
        ((match metricsOf p.2 with
          | some m => some (p.1 + 1, m.healthiness_score, m, p.2)
          | none => none) = (none : Option (ℕ × ℚ × RouteMetrics × List (ℚ × ℚ))))
          ↔ metricsOf p.2 = none := by
      intro p
      cases hm : metricsOf p.2 <;> simp [hm]
    constructor
    · intro h r hr
      exact (forall_mem_enum_iff (P := fun r => metricsOf r = none) routes).mp
        (fun p hp => (h1 p).mp (h p hp)) r hr
    · intro h p hp
      exact (h1 p).mpr
        ((forall_mem_enum_iff (P := fun r => metricsOf r = none) routes).mpr h p hp)
  · intro i r m hir hm
    exact List.mem_filterMap.mpr ⟨(i, r), mem_enum_of_getElem? hir, by simp [hm]⟩

/-- C8 witness: the empty route yields an absent result; a route whose
single reading is present with value 0 (so pmValues ends up empty even
though the reading is not absent) yields an absent result without
failing; a route with present metrics keeps its identifier-tagged entry
in the score list. -/
theorem graceful_degradation_witness :
    compute_route_metrics [] (fun _ => none) 5 = some none ∧
    compute_route_metrics [((0 : ℚ), (0 : ℚ))] (fun _ => some 0) 1 = some none ∧
    (1, exampleMetrics.healthiness_score, exampleMetrics, [((0 : ℚ), (0 : ℚ))]) ∈
      route_scores [[((0 : ℚ), (0 : ℚ))]] (fun _ => some exampleMetrics) :=
  ⟨(graceful_degradation [] (fun _ => none) (fun _ => none)).1 5,
   (graceful_degradation [] (fun _ => none) (fun _ => some 0)).2.1
     [((0 : ℚ), (0 : ℚ))] 1 [((0 : ℚ), (0 : ℚ))] (by decide) (by decide),
   (graceful_degradation [[((0 : ℚ), (0 : ℚ))]] (fun _ => some exampleMetrics)
     (fun _ => none)).2.2.2 0 [((0 : ℚ), (0 : ℚ))] exampleMetrics rfl rfl⟩

/-- C9: the app-level ranking skips absent candidates (entries exist
exactly for scored routes, tagged with their stable 1-based input
position and their own metrics and geometry); the sorted list is a
permutation of the score list (identifiers stay attached to their route,
they are not reassigned to positions), is ordered by healthiness score
descending, retains the relative input order of ties (stable sort), and
the selected best — position 0 after sorting — has maximal healthiness
score. -/
theorem ranker_spec (routes : List (List (ℚ × ℚ)))
    (metricsOf : List (ℚ × ℚ) → Option RouteMetrics) :
    (rank_routes routes metricsOf).Perm (route_scores routes metricsOf) ∧
    List.Pairwise (fun a b => b.2.1 ≤ a.2.1) (rank_routes routes metricsOf) ∧
    (∀ a b, List.Sublist [a, b] (route_scores routes metricsOf) →
      a.2.1 = b.2.1 → List.Sublist [a, b] (rank_routes routes metricsOf)) ∧
    (∀ b, best_route routes metricsOf = some b →
      ∀ a ∈ rank_routes routes metricsOf, a.2.1 ≤ b.2.1) ∧
    (∀ e ∈ rank_routes routes metricsOf, ∃ i,
      routes[i]? = some e.2.2.2 ∧ metricsOf e.2.2.2 = some e.2.2.1 ∧
      e.1 = i + 1 ∧ e.2.1 = e.2.2.1.healthiness_score) := by
  have htrans : ∀ a b c : ℕ × ℚ × RouteMetrics × List (ℚ × ℚ),
      (decide (b.2.1 ≤ a.2.1)) = true → (decide (c.2.1 ≤ b.2.1)) = true →
      (decide (c.2.1 ≤ a.2.1)) = true := by
    intro a b c h1 h2
    simp only [decide_eq_true_eq] at h1 h2 ⊢
    exact le_trans h2 h1
  have htotal : ∀ a b : ℕ × ℚ × RouteMetrics × List (ℚ × ℚ),
      ((decide (b.2.1 ≤ a.2.1)) || (decide (a.2.1 ≤ b.2.1))) = true := by
    intro a b
    simp only [Bool.or_eq_true, decide_eq_true_eq]
    exact le_total _ _
  have hpairwise : List.Pairwise (fun a b => b.2.1 ≤ a.2.1)
      (rank_routes routes metricsOf) :=
    (List.sorted_mergeSort htrans htotal (route_scores routes metricsOf)).imp
      (fun hab => decide_eq_true_eq.mp hab)
  refine ⟨List.mergeSort_perm _ _, hpairwise, ?_, ?_, ?_⟩
  · intro a b hsub heq
    have hpair : List.Pairwise
        (fun x y : ℕ × ℚ × RouteMetrics × List (ℚ × ℚ) =>
          (decide (y.2.1 ≤ x.2.1)) = true) [a, b] := by
      rw [List.pairwise_pair, heq]
      simp
    exact List.sublist_mergeSort htrans htotal hpair hsub
  · intro b hb a ha
    cases hrank : rank_routes routes metricsOf with
    | nil =>
      rw [best_route, hrank] at hb
      simp at hb
    | cons hd tl =>
      rw [best_route, hrank] at hb
      simp only [List.head?_cons, Option.some.injEq] at hb
      subst hb
      rw [hrank] at ha hpairwise
      rcases List.mem_cons.mp ha with rfl | ha2
      · exact le_refl _
      · exact (List.pairwise_cons.mp hpairwise).1 a ha2
  · intro e he
    have he2 : e ∈ route_scores routes metricsOf :=
      (List.mergeSort_perm _ _).subset he
    obtain ⟨⟨i, r⟩, hp, heq⟩ := List.mem_filterMap.mp he2
    rcases hmOf : metricsOf r with _ | m
    · rw [hmOf] at heq
      simp at heq
    · rw [hmOf] at heq
      obtain rfl := Option.some.inj heq
      obtain ⟨hlt, hget⟩ := List.mem_enum hp
      refine ⟨i, ?_, hmOf, rfl, rfl⟩
      rw [List.getElem?_eq_getElem hlt, ← hget]

/-- C9 witness: two routes with equal healthiness score keep their input
order after sorting, identifiers and geometries attached. -/
theorem ranker_spec_witness :
    List.Sublist
      [(1, exampleMetrics.healthiness_score, exampleMetrics,
          [((0 : ℚ), (0 : ℚ))]),
       (2, exampleMetrics.healthiness_score, exampleMetrics,
          [((0 : ℚ), (1 : ℚ))])]
      (rank_routes [[((0 : ℚ), (0 : ℚ))], [((0 : ℚ), (1 : ℚ))]]
        (fun _ => some exampleMetrics)) :=
  (ranker_spec [[((0 : ℚ), (0 : ℚ))], [((0 : ℚ), (1 : ℚ))]]
      (fun _ => some exampleMetrics)).2.2.1
    (1, exampleMetrics.healthiness_score, exampleMetrics, [((0 : ℚ), (0 : ℚ))])
    (2, exampleMetrics.healthiness_score, exampleMetrics, [((0 : ℚ), (1 : ℚ))])
    (List.Sublist.refl _) rfl

end AirQMaps
